import Mathlib

/-!
# MAC peering resolver (`topology/probes/peering.go`)

A shallow embedding of `PeeringProbe` and of the part of the graph store it
calls, followed by the properties of the resolver.

* `PeeringProbe.onNodeEvent`, `OnNodeAdded`, `OnNodeUpdated`, `OnNodeDeleted`
  and `NewPeeringProbe` follow `peering.go` statement by statement.
* The operations of the `graph` and `topology` packages that the resolver
  calls (`GetFieldString`, `GetNodes`, `HaveLayer2Link`, `AddLayer2Link`) and
  the store operations behind them or used in the scenarios (`NewEdge`,
  `NewNode`, `DelNode`) are modelled from the specification and marked as
  such.

Go pointers to nodes are represented by node values: the resolver only reads the
identifier and the metadata of the nodes it is handed, and identifiers are
immutable.  The Go map `peers` is a finite map with unique keys (`AList`); the
order of its entries stands for one of the iteration orders Go may pick.
-/

namespace Skydive

/-! ## Data model -/

/-- Node and edge identifiers are strings. -/
abbrev Identifier := String

/-- An attribute value: strings, numbers and booleans. -/
inductive Value where
  | str (s : String)
  | num (i : Int)
  | bool (b : Bool)
deriving DecidableEq, Repr

/-- Modelled from the spec: `graph.Metadata`, a mapping of attribute name to
attribute value, compared by value.  A key is looked up with `List.lookup`. -/
abbrev Metadata := List (String × Value)

/-- Modelled from the spec: `graph.Node`, an identifier and its metadata. -/
structure Node where
  ID : Identifier
  metadata : Metadata
deriving DecidableEq, Repr

/-- Modelled from the spec: `graph.Edge`, a relation between two identifiers that
carries its own metadata. -/
structure Edge where
  parent : Identifier
  child : Identifier
  metadata : Metadata
deriving DecidableEq, Repr

/-- Modelled from the spec: `graph.Graph`, the nodes and the edges of the store.
Several edges between the same pair of nodes may coexist, so the edges are a
list.  The revision counter and the listener list play no part in the
resolver and are left out. -/
structure Graph where
  nodes : List Node
  edges : List Edge
deriving DecidableEq, Repr

/-- Modelled from the spec: `Node.GetFieldString`, the string stored under
`name`, and the empty string when the field is absent or is not a string (the
error result of the Go function is dropped by every caller in `peering.go`). -/
def Node.GetFieldString (n : Node) (name : String) : String :=
  match n.metadata.lookup name with
  | some (Value.str s) => s
  | _ => ""

/-- Modelled from the spec: exact-value conjunctive match of a metadata filter:
every key of the filter is present with an equal value. -/
def Metadata.matchesFilter (m filter : Metadata) : Bool :=
  filter.all fun kv => decide (m.lookup kv.1 = some kv.2)

/-- Modelled from the spec: `Graph.GetNodes`, all nodes whose metadata matches
the filter; a read path that changes nothing. -/
def Graph.GetNodes (g : Graph) (filter : Metadata) : List Node :=
  g.nodes.filter fun n => n.metadata.matchesFilter filter

/-- The identifiers of the nodes currently present in the graph. -/
def Graph.nodeIDs (g : Graph) : List Identifier :=
  g.nodes.map Node.ID

/-- Modelled from the spec: the metadata that types an edge as a layer-2 link,
extended by the caller's metadata (`nil` at every call in `peering.go`). -/
def layer2Metadata (metadata : Metadata) : Metadata :=
  ("RelationType", Value.str "layer2") :: metadata

/-- An edge is a layer-2 link between `a` and `b` when it joins the two
identifiers, in either direction, and its metadata matches the layer-2
metadata. -/
def Edge.isLayer2Between (e : Edge) (a b : Identifier) (metadata : Metadata) : Bool :=
  (decide (e.parent = a ∧ e.child = b) || decide (e.parent = b ∧ e.child = a))
    && e.metadata.matchesFilter (layer2Metadata metadata)

/-- The layer-2 links of the graph between two nodes. -/
def layer2Links (g : Graph) (node1 node2 : Node) (metadata : Metadata) : List Edge :=
  g.edges.filter fun e => e.isLayer2Between node1.ID node2.ID metadata

/-- Modelled from the spec: `topology.HaveLayer2Link`, whether a layer-2 link
already exists between the two nodes (a metadata-equal edge between the same
endpoint pair). -/
def HaveLayer2Link (g : Graph) (node1 node2 : Node) (metadata : Metadata) : Bool :=
  g.edges.any fun e => e.isLayer2Between node1.ID node2.ID metadata

/-- Modelled from the spec: `Graph.NewEdge`, insert an edge from `parent` to
`child`; fails (`UnknownEndpoint`) when either endpoint is absent from the
graph, so that every edge joins nodes that are present. -/
def Graph.NewEdge (g : Graph) (parent child : Node) (m : Metadata) : Option (Graph × Edge) :=
  if parent.ID ∈ g.nodeIDs ∧ child.ID ∈ g.nodeIDs then
    some ({ g with edges := g.edges ++ [⟨parent.ID, child.ID, m⟩] }, ⟨parent.ID, child.ID, m⟩)
  else none

/-- Modelled from the spec: `topology.AddLayer2Link`, create a layer-2 link from
`node1` to `node2` through `NewEdge` with the layer-2 metadata.  When the
store refuses the edge the graph is left as it is (`peering.go` drops the
result of the call). -/
def AddLayer2Link (g : Graph) (node1 node2 : Node) (metadata : Metadata) : Graph :=
  match g.NewEdge node1 node2 (layer2Metadata metadata) with
  | some (g1, _) => g1
  | none => g

/-! ## The peering probe -/

/-- The Go map `map[string]*graph.Node`. -/
abbrev Peers := AList fun _ : String => Node

/-- The struct `PeeringProbe`: the graph it listens to and the pending peers.
`log` collects the lines written through `logging.GetLogger().Errorf`. -/
structure PeeringProbe where
  graph : Graph
  peers : Peers
  log : List String

/-- The method `PeeringProbe.onNodeEvent` of `peering.go`. -/
def PeeringProbe.onNodeEvent (p : PeeringProbe) (n : Node) : PeeringProbe :=
  let mac := n.GetFieldString "MAC"
  match (if mac ≠ "" then p.peers.lookup mac else none) with
  | some node =>
    if !HaveLayer2Link p.graph node n [] then
      { p with graph := AddLayer2Link p.graph node n [] }
    else p
  | none =>
    let mac := n.GetFieldString "PeerIntfMAC"
    if mac ≠ "" then
      let nodes := p.graph.GetNodes [("MAC", Value.str mac)]
      match nodes with
      | [q] =>
        let p1 : PeeringProbe :=
          if !HaveLayer2Link p.graph n q [] then
            { p with graph := AddLayer2Link p.graph n q [] }
          else p
        { p1 with peers := p1.peers.insert mac n }
      | [] => { p with peers := p.peers.insert mac n }
      | _ => { p with log := p.log ++ ["Multiple peer MAC found: " ++ mac] }
    else p

/-- The method `PeeringProbe.OnNodeUpdated`. -/
def PeeringProbe.OnNodeUpdated (p : PeeringProbe) (n : Node) : PeeringProbe :=
  p.onNodeEvent n

/-- The method `PeeringProbe.OnNodeAdded`. -/
def PeeringProbe.OnNodeAdded (p : PeeringProbe) (n : Node) : PeeringProbe :=
  p.onNodeEvent n

/-- The method `PeeringProbe.OnNodeDeleted`: a loop over the entries of `peers`
that deletes the key of every entry whose node has the identifier of `n`. -/
def PeeringProbe.OnNodeDeleted (p : PeeringProbe) (n : Node) : PeeringProbe :=
  { p with
    peers := p.peers.entries.foldl
      (fun peers kv => if n.ID = kv.2.ID then peers.erase kv.1 else peers) p.peers }

/-- The constructor `NewPeeringProbe`: an empty `peers` map over the graph `g`. -/
def NewPeeringProbe (g : Graph) : PeeringProbe :=
  { graph := g, peers := ∅, log := [] }

/-- The two node events the resolver reacts to by pairing. -/
inductive NodeEvent where
  | NodeAdded
  | NodeUpdated
deriving DecidableEq, Repr

/-- Delivery of a `NodeAdded` or `NodeUpdated` event to the probe: the graph
calls `OnNodeAdded`, respectively `OnNodeUpdated`. -/
def PeeringProbe.deliver (p : PeeringProbe) (ev : NodeEvent) (n : Node) : PeeringProbe :=
  match ev with
  | NodeEvent.NodeAdded => p.OnNodeAdded n
  | NodeEvent.NodeUpdated => p.OnNodeUpdated n

/-- The conditional link creation that occurs twice in `onNodeEvent`
(`if !HaveLayer2Link(..) { AddLayer2Link(..) }`), named for use in proofs. -/
def PeeringProbe.ensureLink (p : PeeringProbe) (a b : Node) : PeeringProbe :=
  if !HaveLayer2Link p.graph a b [] then
    { p with graph := AddLayer2Link p.graph a b [] }
  else p

/-! ## The graph store seen from the probe -/

/-- Modelled from the spec: `Graph.NewNode`, insert a new node; fails
(`DuplicateID`) when the identifier already exists. -/
def Graph.NewNode (g : Graph) (id : Identifier) (m : Metadata) : Option (Graph × Node) :=
  if id ∈ g.nodeIDs then none
  else some ({ g with nodes := g.nodes ++ [⟨id, m⟩] }, ⟨id, m⟩)

/-- Modelled from the spec: `Graph.DelNode`, remove the node and its incident
edges. -/
def Graph.DelNode (g : Graph) (n : Node) : Graph :=
  { nodes := g.nodes.filter fun q => decide (q.ID ≠ n.ID),
    edges := g.edges.filter fun e => decide (e.parent ≠ n.ID ∧ e.child ≠ n.ID) }

/-- Modelled from the spec: the data-model invariants of a graph: identifiers
are unique and every edge joins nodes that are present. -/
def Graph.WF (g : Graph) : Prop :=
  g.nodeIDs.Nodup ∧ ∀ e ∈ g.edges, e.parent ∈ g.nodeIDs ∧ e.child ∈ g.nodeIDs

/-- Modelled from the spec: a probe inserts a node with `NewNode` and the store
notifies the listener with `NodeAdded` before the call returns; a duplicate
identifier is rejected and nothing is notified. -/
def PeeringProbe.addNode (p : PeeringProbe) (n : Node) : PeeringProbe :=
  match p.graph.NewNode n.ID n.metadata with
  | some (g, n1) => ({ p with graph := g }).OnNodeAdded n1
  | none => p

/-- What the probe can observe of the store between two of its own steps.

* `mutate g`: the store becomes `g` by mutations that remove no node (new
  nodes, metadata updates, edges added or removed);
* `nodeEvent ev n`: `NodeAdded` or `NodeUpdated` is delivered for `n`;
* `nodeDeleted g n`: the store removes `n`, becoming `g`, and delivers
  `NodeDeleted` for `n`. -/
inductive Transition where
  | mutate (g : Graph)
  | nodeEvent (ev : NodeEvent) (n : Node)
  | nodeDeleted (g : Graph) (n : Node)

/-- The effect of a transition on the probe and its graph. -/
def PeeringProbe.step (p : PeeringProbe) : Transition → PeeringProbe
  | Transition.mutate g => { p with graph := g }
  | Transition.nodeEvent ev n => p.deliver ev n
  | Transition.nodeDeleted g n => ({ p with graph := g }).OnNodeDeleted n

/-- The discipline of the store: node events are delivered only for nodes
currently in the graph, and a node leaves the graph only together with its
`NodeDeleted` event. -/
def Transition.admissible (p : PeeringProbe) : Transition → Bool
  | Transition.mutate g => p.graph.nodeIDs.all fun id => decide (id ∈ g.nodeIDs)
  | Transition.nodeEvent _ n => decide (n.ID ∈ p.graph.nodeIDs)
  | Transition.nodeDeleted g n =>
    p.graph.nodeIDs.all fun id => decide (id = n.ID) || decide (id ∈ g.nodeIDs)

/-- Every transition of the sequence is admissible in the state it is taken in. -/
def admissibleTrace (p : PeeringProbe) : List Transition → Bool
  | [] => true
  | t :: ts => t.admissible p && admissibleTrace (p.step t) ts

/-- Run a sequence of transitions. -/
def PeeringProbe.run (p : PeeringProbe) (ts : List Transition) : PeeringProbe :=
  ts.foldl PeeringProbe.step p

/-- Every node stored in `peers` is currently present in the graph. -/
def PeeringProbe.peersInGraph (p : PeeringProbe) : Prop :=
  ∀ kv ∈ p.peers.entries, kv.2.ID ∈ p.graph.nodeIDs

/-! ## Concrete scenarios -/

/-- A node that only has a `MAC`. -/
def nodeA : Node := ⟨"A", [("Type", Value.str "veth"), ("MAC", Value.str "m1")]⟩

/-- A second node with the `MAC` of `nodeA`. -/
def nodeA2 : Node := ⟨"A2", [("MAC", Value.str "m1")]⟩

/-- A node that declares the peer `m1` and has no `MAC` of its own. -/
def nodeB : Node := ⟨"B", [("PeerIntfMAC", Value.str "m1")]⟩

/-- A node with `MAC = mb` that declares the peer `m1`. -/
def nodeBmac : Node := ⟨"B", [("MAC", Value.str "mb"), ("PeerIntfMAC", Value.str "m1")]⟩

/-- A third node with `MAC = m2` that declares the peer `mb`. -/
def nodeC : Node := ⟨"C", [("MAC", Value.str "m2"), ("PeerIntfMAC", Value.str "mb")]⟩

/-- A third node with `MAC = m2` that declares the peer `mx`. -/
def nodeCx : Node := ⟨"C", [("MAC", Value.str "m2"), ("PeerIntfMAC", Value.str "mx")]⟩

/-- An unrelated node with `MAC = mx`. -/
def nodeX : Node := ⟨"X", [("MAC", Value.str "mx")]⟩

/-- A node whose `MAC` and `PeerIntfMAC` are the same address. -/
def nodeS : Node := ⟨"S", [("MAC", Value.str "ms"), ("PeerIntfMAC", Value.str "ms")]⟩

/-- A fresh probe over the graph that holds `nodeA` and `nodeB`. -/
def probeAB : PeeringProbe := NewPeeringProbe ⟨[nodeA, nodeB], []⟩

/-- A probe in which `nodeB` is pending under `m1` and `nodeA` has just been added. -/
def probePendingB : PeeringProbe :=
  { graph := ⟨[nodeB, nodeA], []⟩, peers := (∅ : Peers).insert "m1" nodeB, log := [] }

/-- A probe in which `nodeB` is filed under two keys and `nodeX` under a third. -/
def probeTwoKeys : PeeringProbe :=
  { graph := ⟨[nodeX], []⟩,
    peers := (((∅ : Peers).insert "m1" nodeB).insert "m7" nodeB).insert "mx" nodeX,
    log := [] }

/-- The node `B` is added and announced, then `A`, then `B` is deleted. -/
def traceAddAddDelete : List Transition :=
  [ Transition.mutate ⟨[nodeB], []⟩,
    Transition.nodeEvent NodeEvent.NodeAdded nodeB,
    Transition.mutate ⟨[nodeB, nodeA], []⟩,
    Transition.nodeEvent NodeEvent.NodeAdded nodeA,
    Transition.nodeEvent NodeEvent.NodeUpdated nodeB,
    Transition.nodeDeleted (Graph.DelNode ⟨[nodeB, nodeA], [⟨"B", "A", layer2Metadata []⟩]⟩ nodeB)
      nodeB ]

/-! ## Basic facts -/

theorem deliver_eq (p : PeeringProbe) (ev : NodeEvent) (n : Node) :
    p.deliver ev n = p.onNodeEvent n := by
  cases ev <;> rfl

theorem onNodeEvent_pending (p : PeeringProbe) (n node : Node)
    (hmac : n.GetFieldString "MAC" ≠ "")
    (hnode : p.peers.lookup (n.GetFieldString "MAC") = some node) :
    p.onNodeEvent n = p.ensureLink node n := by
  simp [PeeringProbe.onNodeEvent, PeeringProbe.ensureLink, hmac, hnode]

theorem onNodeEvent_not_pending (p : PeeringProbe) (n : Node)
    (h : n.GetFieldString "MAC" = "" ∨ p.peers.lookup (n.GetFieldString "MAC") = none) :
    p.onNodeEvent n =
      if n.GetFieldString "PeerIntfMAC" ≠ "" then
        match p.graph.GetNodes [("MAC", Value.str (n.GetFieldString "PeerIntfMAC"))] with
        | [q] =>
          { p.ensureLink n q with
            peers := (p.ensureLink n q).peers.insert (n.GetFieldString "PeerIntfMAC") n }
        | [] => { p with peers := p.peers.insert (n.GetFieldString "PeerIntfMAC") n }
        | _ => { p with log := p.log ++
                  ["Multiple peer MAC found: " ++ n.GetFieldString "PeerIntfMAC"] }
      else p := by
  have hs : (if n.GetFieldString "MAC" ≠ "" then p.peers.lookup (n.GetFieldString "MAC")
      else none) = none := by
    rcases h with h | h
    · simp [h]
    · simp [h]
  unfold PeeringProbe.onNodeEvent
  simp only [hs]
  rfl

theorem AddLayer2Link_present (g : Graph) (a b : Node) (m : Metadata)
    (ha : a.ID ∈ g.nodeIDs) (hb : b.ID ∈ g.nodeIDs) :
    AddLayer2Link g a b m = { g with edges := g.edges ++ [⟨a.ID, b.ID, layer2Metadata m⟩] } := by
  unfold AddLayer2Link Graph.NewEdge
  rw [if_pos ⟨ha, hb⟩]

theorem AddLayer2Link_absent (g : Graph) (a b : Node) (m : Metadata)
    (h : a.ID ∉ g.nodeIDs ∨ b.ID ∉ g.nodeIDs) : AddLayer2Link g a b m = g := by
  unfold AddLayer2Link Graph.NewEdge
  rw [if_neg (by rw [not_and_or]; exact h)]

theorem AddLayer2Link_nodes (g : Graph) (a b : Node) (m : Metadata) :
    (AddLayer2Link g a b m).nodes = g.nodes := by
  by_cases h : a.ID ∈ g.nodeIDs ∧ b.ID ∈ g.nodeIDs
  · rw [AddLayer2Link_present g a b m h.1 h.2]
  · rw [AddLayer2Link_absent g a b m (not_and_or.1 h)]

theorem ensureLink_peers (p : PeeringProbe) (a b : Node) : (p.ensureLink a b).peers = p.peers := by
  unfold PeeringProbe.ensureLink; split <;> rfl

theorem ensureLink_log (p : PeeringProbe) (a b : Node) : (p.ensureLink a b).log = p.log := by
  unfold PeeringProbe.ensureLink; split <;> rfl

theorem ensureLink_nodes (p : PeeringProbe) (a b : Node) :
    (p.ensureLink a b).graph.nodes = p.graph.nodes := by
  unfold PeeringProbe.ensureLink
  split
  · exact AddLayer2Link_nodes _ _ _ _
  · rfl

theorem ensureLink_nodeIDs (p : PeeringProbe) (a b : Node) :
    (p.ensureLink a b).graph.nodeIDs = p.graph.nodeIDs := by
  unfold Graph.nodeIDs
  rw [ensureLink_nodes]

theorem ensureLink_edges (p : PeeringProbe) (a b : Node)
    (ha : a.ID ∈ p.graph.nodeIDs) (hb : b.ID ∈ p.graph.nodeIDs) :
    (p.ensureLink a b).graph.edges =
      if HaveLayer2Link p.graph a b [] = true then p.graph.edges
      else p.graph.edges ++ [⟨a.ID, b.ID, layer2Metadata []⟩] := by
  unfold PeeringProbe.ensureLink
  cases h : HaveLayer2Link p.graph a b [] <;> simp [AddLayer2Link_present _ _ _ _ ha hb]

theorem ensureLink_edges_cases (p : PeeringProbe) (a b : Node) :
    (p.ensureLink a b).graph.edges = p.graph.edges ∨
      (p.ensureLink a b).graph.edges = p.graph.edges ++ [⟨a.ID, b.ID, layer2Metadata []⟩] := by
  by_cases h : a.ID ∈ p.graph.nodeIDs ∧ b.ID ∈ p.graph.nodeIDs
  · rw [ensureLink_edges p a b h.1 h.2]
    split
    · exact Or.inl rfl
    · exact Or.inr rfl
  · left
    unfold PeeringProbe.ensureLink
    split
    · rw [AddLayer2Link_absent _ _ _ _ (not_and_or.1 h)]
    · rfl

theorem layer2Metadata_matches : (layer2Metadata []).matchesFilter (layer2Metadata []) = true := by
  decide

theorem ensureLink_have (p : PeeringProbe) (a b : Node)
    (ha : a.ID ∈ p.graph.nodeIDs) (hb : b.ID ∈ p.graph.nodeIDs) :
    HaveLayer2Link (p.ensureLink a b).graph a b [] = true := by
  unfold PeeringProbe.ensureLink
  cases h : HaveLayer2Link p.graph a b []
  · simp [AddLayer2Link_present _ _ _ _ ha hb, HaveLayer2Link, Edge.isLayer2Between,
      layer2Metadata_matches]
  · simpa using h

/-- Nothing is left to do for the pair: a link exists or an endpoint is absent. -/
theorem ensureLink_fixed (p : PeeringProbe) (a b : Node)
    (h : HaveLayer2Link p.graph a b [] = true ∨ a.ID ∉ p.graph.nodeIDs ∨ b.ID ∉ p.graph.nodeIDs) :
    p.ensureLink a b = p := by
  unfold PeeringProbe.ensureLink
  rcases h with h | h
  · simp [h]
  · split
    · rw [AddLayer2Link_absent _ _ _ _ h]
    · rfl

theorem ensureLink_settled (p : PeeringProbe) (a b : Node) :
    HaveLayer2Link (p.ensureLink a b).graph a b [] = true ∨
      a.ID ∉ (p.ensureLink a b).graph.nodeIDs ∨ b.ID ∉ (p.ensureLink a b).graph.nodeIDs := by
  by_cases h : a.ID ∈ p.graph.nodeIDs ∧ b.ID ∈ p.graph.nodeIDs
  · exact Or.inl (ensureLink_have p a b h.1 h.2)
  · right
    rw [ensureLink_nodeIDs]
    exact not_and_or.1 h

theorem mem_nodeIDs_of_mem (g : Graph) (n : Node) (h : n ∈ g.nodes) : n.ID ∈ g.nodeIDs :=
  List.mem_map_of_mem Node.ID h

theorem mem_nodes_of_GetNodes (g : Graph) (f : Metadata) (q : Node) (h : q ∈ g.GetNodes f) :
    q ∈ g.nodes :=
  (List.mem_filter.1 h).1

/-! ## The four branches of the node-event handler -/

theorem single_match_effect (s : PeeringProbe) (ev : NodeEvent) (n q : Node)
    (m : String)
    (hn : n.ID ∈ s.graph.nodeIDs)
    (hpend : n.GetFieldString "MAC" = "" ∨ s.peers.lookup (n.GetFieldString "MAC") = none)
    (hm : n.GetFieldString "PeerIntfMAC" = m) (hne : m ≠ "")
    (hq : s.graph.GetNodes [("MAC", Value.str m)] = [q]) :
    HaveLayer2Link (s.deliver ev n).graph n q [] = true ∧
    (s.deliver ev n).graph.nodes = s.graph.nodes ∧
    (s.deliver ev n).graph.edges =
      (if HaveLayer2Link s.graph n q [] = true then s.graph.edges
       else s.graph.edges ++ [⟨n.ID, q.ID, layer2Metadata []⟩]) ∧
    (s.deliver ev n).peers.lookup m = some n ∧
    ∀ k, k ≠ m → (s.deliver ev n).peers.lookup k = s.peers.lookup k := by
  subst hm
  have hqin : q.ID ∈ s.graph.nodeIDs :=
    mem_nodeIDs_of_mem _ _ (mem_nodes_of_GetNodes _ _ _ (by rw [hq]; exact List.mem_singleton_self q))
  rw [deliver_eq, onNodeEvent_not_pending s n hpend]
  rw [if_pos hne, hq]
  refine ⟨ensureLink_have s n q hn hqin, ensureLink_nodes s n q, ensureLink_edges s n q hn hqin,
    ?_, ?_⟩
  · exact AList.lookup_insert _
  · intro k hk
    simp only [ensureLink_peers]
    exact AList.lookup_insert_ne hk

/-- C1. Single match: for a node `n` of the graph, when the pending-peer branch
does not apply, `PeerIntfMAC` is a non-empty `m` and exactly one node `q` has
`MAC = m`, the handler leaves a layer-2 link between `n` and `q` (one edge
`n → q` is appended iff none existed, nothing else changes in the graph) and
sets `peers[m] = n`, every other entry of `peers` being unchanged. -/
theorem single_match_links_and_registers (s : PeeringProbe) (ev : NodeEvent) (n q : Node)
    (m : String)
    (hn : n.ID ∈ s.graph.nodeIDs)
    (hpend : n.GetFieldString "MAC" = "" ∨ s.peers.lookup (n.GetFieldString "MAC") = none)
    (hm : n.GetFieldString "PeerIntfMAC" = m) (hne : m ≠ "")
    (hq : s.graph.GetNodes [("MAC", Value.str m)] = [q]) :
    HaveLayer2Link (s.deliver ev n).graph n q [] = true ∧
    (s.deliver ev n).graph.nodes = s.graph.nodes ∧
    (s.deliver ev n).graph.edges =
      (if HaveLayer2Link s.graph n q [] = true then s.graph.edges
       else s.graph.edges ++ [⟨n.ID, q.ID, layer2Metadata []⟩]) ∧
    (s.deliver ev n).peers.lookup m = some n ∧
    ∀ k, k ≠ m → (s.deliver ev n).peers.lookup k = s.peers.lookup k :=
  single_match_effect s ev n q m hn hpend hm hne hq

/-- C2. Pending-peer completion: when `n.MAC = m` is non-empty, `peers[m] = p`
and both `p` and `n` are present in the graph, the handler ensures a layer-2
link between `p` and `n` (one edge `p → n` is appended iff none existed,
nothing else changes in the graph), leaves `peers` and the log as they were,
and its result depends on `n` only through its identifier and its `MAC`:
`PeerIntfMAC` is not consulted. -/
theorem pending_peer_completion (s : PeeringProbe) (ev : NodeEvent) (n p : Node) (m : String)
    (hm : n.GetFieldString "MAC" = m) (hne : m ≠ "")
    (hp : s.peers.lookup m = some p)
    (hpin : p.ID ∈ s.graph.nodeIDs) (hnin : n.ID ∈ s.graph.nodeIDs) :
    HaveLayer2Link (s.deliver ev n).graph p n [] = true ∧
    (s.deliver ev n).graph.nodes = s.graph.nodes ∧
    (s.deliver ev n).graph.edges =
      (if HaveLayer2Link s.graph p n [] = true then s.graph.edges
       else s.graph.edges ++ [⟨p.ID, n.ID, layer2Metadata []⟩]) ∧
    (s.deliver ev n).peers = s.peers ∧
    (s.deliver ev n).log = s.log ∧
    ∀ n2 : Node, n2.ID = n.ID → n2.GetFieldString "MAC" = m →
      s.deliver ev n2 = s.deliver ev n := by
  subst hm
  have h1 : s.deliver ev n = s.ensureLink p n := by
    rw [deliver_eq, onNodeEvent_pending s n p hne hp]
  rw [h1]
  refine ⟨ensureLink_have s p n hpin hnin, ensureLink_nodes s p n,
    ensureLink_edges s p n hpin hnin, ensureLink_peers s p n, ensureLink_log s p n, ?_⟩
  intro n2 hid hmac
  rw [deliver_eq, onNodeEvent_pending s n2 p (by rw [hmac]; exact hne) (by rw [hmac]; exact hp)]
  simp [PeeringProbe.ensureLink, HaveLayer2Link, AddLayer2Link, Graph.NewEdge, hid]

/-- C3. Zero match: when the pending-peer branch does not apply, `PeerIntfMAC` is
a non-empty `m` and no node has `MAC = m`, the handler leaves the graph
unchanged and sets `peers[m] = n`, every other entry of `peers` being
unchanged. -/
theorem zero_match_registers_only (s : PeeringProbe) (ev : NodeEvent) (n : Node) (m : String)
    (hpend : n.GetFieldString "MAC" = "" ∨ s.peers.lookup (n.GetFieldString "MAC") = none)
    (hm : n.GetFieldString "PeerIntfMAC" = m) (hne : m ≠ "")
    (hq : s.graph.GetNodes [("MAC", Value.str m)] = []) :
    (s.deliver ev n).graph = s.graph ∧
    (s.deliver ev n).peers.lookup m = some n ∧
    ∀ k, k ≠ m → (s.deliver ev n).peers.lookup k = s.peers.lookup k := by
  subst hm
  rw [deliver_eq, onNodeEvent_not_pending s n hpend]
  rw [if_pos hne, hq]
  exact ⟨rfl, AList.lookup_insert _, fun k hk => AList.lookup_insert_ne hk⟩

/-- C4. Ambiguity: when the pending-peer branch does not apply, `PeerIntfMAC` is a
non-empty `m` and two or more nodes have `MAC = m`, the handler returns a state
with the same graph and the same `peers` (so an unset `peers[m]` stays
unset); the only effect is one reported line. -/
theorem ambiguous_match_changes_nothing (s : PeeringProbe) (ev : NodeEvent) (n : Node)
    (m : String)
    (hpend : n.GetFieldString "MAC" = "" ∨ s.peers.lookup (n.GetFieldString "MAC") = none)
    (hm : n.GetFieldString "PeerIntfMAC" = m) (hne : m ≠ "")
    (hq : 2 ≤ (s.graph.GetNodes [("MAC", Value.str m)]).length) :
    (s.deliver ev n).graph = s.graph ∧
    (s.deliver ev n).peers = s.peers ∧
    (s.peers.lookup m = none → (s.deliver ev n).peers.lookup m = none) ∧
    (s.deliver ev n).log = s.log ++ ["Multiple peer MAC found: " ++ m] := by
  subst hm
  rw [deliver_eq, onNodeEvent_not_pending s n hpend]
  rw [if_pos hne]
  match hN : s.graph.GetNodes [("MAC", Value.str (n.GetFieldString "PeerIntfMAC"))] with
  | [] => rw [hN] at hq; simp at hq
  | [_] => rw [hN] at hq; simp at hq
  | _ :: _ :: _ => exact ⟨rfl, rfl, fun h => h, rfl⟩

/-! ## Node deletion -/

theorem foldl_erase_lookup (n : Node) (l : List (Sigma fun _ : String => Node)) (acc : Peers)
    (k : String) :
    (l.foldl (fun peers kv => if n.ID = kv.2.ID then peers.erase kv.1 else peers) acc).lookup k =
      if (∃ kv ∈ l, kv.1 = k ∧ n.ID = kv.2.ID) then none else acc.lookup k := by
  induction l generalizing acc with
  | nil => simp
  | cons kv l ih =>
    rw [List.foldl_cons, ih]
    by_cases hid : n.ID = kv.2.ID
    · by_cases hk : kv.1 = k
      · have h1 : ∃ kv1 ∈ kv :: l, kv1.1 = k ∧ n.ID = kv1.2.ID :=
          ⟨kv, List.mem_cons_self _ _, hk, hid⟩
        rw [if_pos h1, if_pos hid]
        subst hk
        simp [AList.lookup_erase]
      · rw [if_pos hid, AList.lookup_erase_ne (Ne.symm hk)]
        have h2 : (∃ kv1 ∈ kv :: l, kv1.1 = k ∧ n.ID = kv1.2.ID) ↔
            (∃ kv1 ∈ l, kv1.1 = k ∧ n.ID = kv1.2.ID) := by
          constructor
          · rintro ⟨kv1, hmem, h⟩
            rcases List.mem_cons.1 hmem with rfl | hmem
            · exact absurd h.1 hk
            · exact ⟨kv1, hmem, h⟩
          · rintro ⟨kv1, hmem, h⟩
            exact ⟨kv1, List.mem_cons_of_mem _ hmem, h⟩
        simp only [h2]
    · rw [if_neg hid]
      have h2 : (∃ kv1 ∈ kv :: l, kv1.1 = k ∧ n.ID = kv1.2.ID) ↔
          (∃ kv1 ∈ l, kv1.1 = k ∧ n.ID = kv1.2.ID) := by
        constructor
        · rintro ⟨kv1, hmem, h⟩
          rcases List.mem_cons.1 hmem with rfl | hmem
          · exact absurd h.2 hid
          · exact ⟨kv1, hmem, h⟩
        · rintro ⟨kv1, hmem, h⟩
          exact ⟨kv1, List.mem_cons_of_mem _ hmem, h⟩
      simp only [h2]

theorem OnNodeDeleted_lookup (s : PeeringProbe) (n : Node) (k : String) :
    (s.OnNodeDeleted n).peers.lookup k =
      (s.peers.lookup k).filter fun node => decide (node.ID ≠ n.ID) := by
  unfold PeeringProbe.OnNodeDeleted
  simp only
  rw [foldl_erase_lookup]
  cases hl : s.peers.lookup k with
  | none =>
    have : ¬ ∃ kv ∈ s.peers.entries, kv.1 = k ∧ n.ID = kv.2.ID := by
      rintro ⟨kv, hmem, hk, -⟩
      have hin : k ∈ s.peers := by
        rw [AList.mem_keys, AList.keys, List.keys, List.mem_map]
        exact ⟨kv, hmem, hk⟩
      exact (AList.lookup_eq_none.1 hl) hin
    rw [if_neg this]
    rfl
  | some v =>
    have hv : (⟨k, v⟩ : Sigma fun _ : String => Node) ∈ s.peers.entries :=
      AList.mem_lookup_iff.1 hl
    by_cases hid : n.ID = v.ID
    · rw [if_pos ⟨⟨k, v⟩, hv, rfl, hid⟩]
      simp [Option.filter, hid]
    · have : ¬ ∃ kv ∈ s.peers.entries, kv.1 = k ∧ n.ID = kv.2.ID := by
        rintro ⟨⟨k1, v1⟩, hmem, hk, hid1⟩
        simp only at hk hid1
        subst hk
        have := s.peers.nodupKeys.eq_of_mk_mem hmem hv
        subst this
        exact hid hid1
      rw [if_neg this]
      simp [Option.filter, Ne.symm hid]

/-- C5. Deletion cleanup: after `OnNodeDeleted n` the `peers` map holds, under
every key, the previous node unless that node has the identifier of `n`, in
which case the key is gone; so all entries registered to `n` are removed
whatever their key, all others are kept under the same key with the same
node, and the graph is untouched. -/
theorem deletion_cleanup (s : PeeringProbe) (n : Node) :
    (∀ k, (s.OnNodeDeleted n).peers.lookup k =
        (s.peers.lookup k).filter fun node => decide (node.ID ≠ n.ID)) ∧
    (∀ k node, s.peers.lookup k = some node → node.ID = n.ID →
        (s.OnNodeDeleted n).peers.lookup k = none) ∧
    (∀ k node, s.peers.lookup k = some node → node.ID ≠ n.ID →
        (s.OnNodeDeleted n).peers.lookup k = some node) ∧
    (∀ k, s.peers.lookup k = none → (s.OnNodeDeleted n).peers.lookup k = none) ∧
    (s.OnNodeDeleted n).graph = s.graph := by
  refine ⟨OnNodeDeleted_lookup s n, ?_, ?_, ?_, rfl⟩
  · intro k node h hid
    rw [OnNodeDeleted_lookup, h]
    simp [Option.filter, hid]
  · intro k node h hid
    rw [OnNodeDeleted_lookup, h]
    simp [Option.filter, hid]
  · intro k h
    rw [OnNodeDeleted_lookup, h]
    rfl

/-! ## What a node event can change -/

theorem onNodeEvent_peers (s : PeeringProbe) (n : Node) :
    (s.onNodeEvent n).peers = s.peers ∨
      (n.GetFieldString "PeerIntfMAC" ≠ "" ∧
        (s.onNodeEvent n).peers = s.peers.insert (n.GetFieldString "PeerIntfMAC") n) := by
  by_cases hpend : n.GetFieldString "MAC" = "" ∨ s.peers.lookup (n.GetFieldString "MAC") = none
  · rw [onNodeEvent_not_pending s n hpend]
    by_cases hne : n.GetFieldString "PeerIntfMAC" ≠ ""
    · rw [if_pos hne]
      match s.graph.GetNodes [("MAC", Value.str (n.GetFieldString "PeerIntfMAC"))] with
      | [] => exact Or.inr ⟨hne, rfl⟩
      | [q] => exact Or.inr ⟨hne, by simp only [ensureLink_peers]⟩
      | _ :: _ :: _ => exact Or.inl rfl
    · rw [if_neg hne]
      exact Or.inl rfl
  · rw [not_or] at hpend
    obtain ⟨hmac, hl⟩ := hpend
    obtain ⟨node, hnode⟩ := Option.ne_none_iff_exists'.1 hl
    rw [onNodeEvent_pending s n node hmac hnode]
    exact Or.inl (ensureLink_peers s node n)

theorem onNodeEvent_nodes (s : PeeringProbe) (n : Node) :
    (s.onNodeEvent n).graph.nodes = s.graph.nodes := by
  by_cases hpend : n.GetFieldString "MAC" = "" ∨ s.peers.lookup (n.GetFieldString "MAC") = none
  · rw [onNodeEvent_not_pending s n hpend]
    by_cases hne : n.GetFieldString "PeerIntfMAC" ≠ ""
    · rw [if_pos hne]
      match s.graph.GetNodes [("MAC", Value.str (n.GetFieldString "PeerIntfMAC"))] with
      | [] => rfl
      | [q] => exact ensureLink_nodes s n q
      | _ :: _ :: _ => rfl
    · rw [if_neg hne]
  · rw [not_or] at hpend
    obtain ⟨hmac, hl⟩ := hpend
    obtain ⟨node, hnode⟩ := Option.ne_none_iff_exists'.1 hl
    rw [onNodeEvent_pending s n node hmac hnode]
    exact ensureLink_nodes s node n

theorem onNodeEvent_edges (s : PeeringProbe) (n : Node) :
    (s.onNodeEvent n).graph.edges = s.graph.edges ∨
      ∃ e, (s.onNodeEvent n).graph.edges = s.graph.edges ++ [e] := by
  have key : ∀ a b : Node, (s.ensureLink a b).graph.edges = s.graph.edges ∨
      ∃ e, (s.ensureLink a b).graph.edges = s.graph.edges ++ [e] := by
    intro a b
    rcases ensureLink_edges_cases s a b with h | h
    · exact Or.inl h
    · exact Or.inr ⟨_, h⟩
  by_cases hpend : n.GetFieldString "MAC" = "" ∨ s.peers.lookup (n.GetFieldString "MAC") = none
  · rw [onNodeEvent_not_pending s n hpend]
    by_cases hne : n.GetFieldString "PeerIntfMAC" ≠ ""
    · rw [if_pos hne]
      match s.graph.GetNodes [("MAC", Value.str (n.GetFieldString "PeerIntfMAC"))] with
      | [] => exact Or.inl rfl
      | [q] => exact key n q
      | _ :: _ :: _ => exact Or.inl rfl
    · rw [if_neg hne]
      exact Or.inl rfl
  · rw [not_or] at hpend
    obtain ⟨hmac, hl⟩ := hpend
    obtain ⟨node, hnode⟩ := Option.ne_none_iff_exists'.1 hl
    rw [onNodeEvent_pending s n node hmac hnode]
    exact key node n

/-- C9. Registration asymmetry: a node event either leaves `peers` unchanged or
performs the single update `peers[n.PeerIntfMAC] := n` with a non-empty
`PeerIntfMAC`.  Hence a node without `PeerIntfMAC` never modifies `peers`, no
key other than `n.PeerIntfMAC` is touched (in particular not the node's own
`MAC`), and a node without `PeerIntfMAC` whose `MAC` is unset or is not a
key of `peers` leaves the graph as it is. -/
theorem registration_asymmetry (s : PeeringProbe) (ev : NodeEvent) (n : Node) :
    ((s.deliver ev n).peers = s.peers ∨
      (n.GetFieldString "PeerIntfMAC" ≠ "" ∧
        (s.deliver ev n).peers = s.peers.insert (n.GetFieldString "PeerIntfMAC") n)) ∧
    (n.GetFieldString "PeerIntfMAC" = "" → (s.deliver ev n).peers = s.peers) ∧
    (∀ k, k ≠ n.GetFieldString "PeerIntfMAC" →
      (s.deliver ev n).peers.lookup k = s.peers.lookup k) ∧
    (n.GetFieldString "PeerIntfMAC" = "" →
      (n.GetFieldString "MAC" = "" ∨ s.peers.lookup (n.GetFieldString "MAC") = none) →
      (s.deliver ev n).graph = s.graph) := by
  rw [deliver_eq]
  refine ⟨onNodeEvent_peers s n, ?_, ?_, ?_⟩
  · intro h
    rcases onNodeEvent_peers s n with h1 | ⟨h1, -⟩
    · exact h1
    · exact absurd h h1
  · intro k hk
    rcases onNodeEvent_peers s n with h1 | ⟨-, h1⟩
    · rw [h1]
    · rw [h1]
      exact AList.lookup_insert_ne hk
  · intro h hpend
    rw [onNodeEvent_not_pending s n hpend, if_neg (by simp [h])]

/-- C10. Self-peering: when `MAC` and `PeerIntfMAC` of `n` are the same non-empty
`m`, `peers` has no entry for `m`, and the nodes of the graph whose `MAC` is
`m` are exactly `n` itself, the handler takes `n` as its own single match:
the graph then holds a layer-2 edge from `n` to `n` (appended iff no layer-2
link from `n` to itself existed) and `peers[m] = n`. -/
theorem self_peering_links_node_to_itself (s : PeeringProbe) (ev : NodeEvent) (n : Node)
    (m : String)
    (hmac : n.GetFieldString "MAC" = m) (hpeer : n.GetFieldString "PeerIntfMAC" = m)
    (hne : m ≠ "") (hnone : s.peers.lookup m = none)
    (honly : s.graph.GetNodes [("MAC", Value.str m)] = [n]) :
    (∃ e ∈ (s.deliver ev n).graph.edges,
      e.parent = n.ID ∧ e.child = n.ID ∧ e.metadata.matchesFilter (layer2Metadata []) = true) ∧
    (s.deliver ev n).graph.edges =
      (if HaveLayer2Link s.graph n n [] = true then s.graph.edges
       else s.graph.edges ++ [⟨n.ID, n.ID, layer2Metadata []⟩]) ∧
    (s.deliver ev n).peers.lookup m = some n := by
  have hpend : n.GetFieldString "MAC" = "" ∨ s.peers.lookup (n.GetFieldString "MAC") = none :=
    Or.inr (by rw [hmac]; exact hnone)
  have hn : n.ID ∈ s.graph.nodeIDs :=
    mem_nodeIDs_of_mem _ _
      (mem_nodes_of_GetNodes _ _ _ (by rw [honly]; exact List.mem_singleton_self n))
  obtain ⟨h1, -, h3, h4, -⟩ := single_match_effect s ev n n m hn hpend hpeer hne honly
  refine ⟨?_, h3, h4⟩
  simp only [HaveLayer2Link, List.any_eq_true, Edge.isLayer2Between, Bool.and_eq_true,
    Bool.or_eq_true, decide_eq_true_eq, or_self] at h1
  obtain ⟨e, he, ⟨hp, hc⟩, hmd⟩ := h1
  exact ⟨e, he, hp, hc, hmd⟩

/-! ## Replaying a node event -/

theorem matchesFilter_of_GetFieldString (n : Node) (name m : String)
    (h : n.GetFieldString name = m) (hne : m ≠ "") :
    n.metadata.matchesFilter [(name, Value.str m)] = true := by
  unfold Node.GetFieldString at h
  simp only [Metadata.matchesFilter, List.all_cons, List.all_nil, Bool.and_true,
    decide_eq_true_eq]
  split at h
  · rw [‹List.lookup name n.metadata = _›, h]
  · exact absurd h.symm hne

theorem mem_GetNodes_of_mac (g : Graph) (n : Node) (m : String) (hn : n ∈ g.nodes)
    (h : n.GetFieldString "MAC" = m) (hne : m ≠ "") :
    n ∈ g.GetNodes [("MAC", Value.str m)] := by
  unfold Graph.GetNodes
  exact List.mem_filter.2 ⟨hn, matchesFilter_of_GetFieldString n "MAC" m h hne⟩

theorem GetNodes_congr (g g1 : Graph) (h : g1.nodes = g.nodes) (f : Metadata) :
    g1.GetNodes f = g.GetNodes f := by
  unfold Graph.GetNodes
  rw [h]

theorem onNodeEvent_replay (s : PeeringProbe) (n : Node)
    (hn : n ∈ s.graph.nodes ∨ n.ID ∉ s.graph.nodeIDs) :
    ((s.onNodeEvent n).onNodeEvent n).peers = (s.onNodeEvent n).peers ∧
    ((s.onNodeEvent n).onNodeEvent n).graph = (s.onNodeEvent n).graph := by
  have hids : (s.onNodeEvent n).graph.nodeIDs = s.graph.nodeIDs := by
    unfold Graph.nodeIDs
    rw [onNodeEvent_nodes]
  by_cases hpend : n.GetFieldString "MAC" = "" ∨ s.peers.lookup (n.GetFieldString "MAC") = none
  · by_cases hne : n.GetFieldString "PeerIntfMAC" ≠ ""
    · -- the `PeerIntfMAC` path
      have h1 := onNodeEvent_not_pending s n hpend
      rw [if_pos hne] at h1
      match hN : s.graph.GetNodes [("MAC", Value.str (n.GetFieldString "PeerIntfMAC"))] with
      | [] =>
        rw [hN] at h1
        have hpeers : (s.onNodeEvent n).peers =
            s.peers.insert (n.GetFieldString "PeerIntfMAC") n := by rw [h1]
        by_cases hmac : n.GetFieldString "MAC" = n.GetFieldString "PeerIntfMAC"
        · -- the node is absent from the graph and is now pending under its own MAC
          have habs : n.ID ∉ s.graph.nodeIDs := by
            rcases hn with hn | hn
            · have := mem_GetNodes_of_mac s.graph n _ hn hmac hne
              rw [hN] at this
              exact absurd this (List.not_mem_nil _)
            · exact hn
          have hl : (s.onNodeEvent n).peers.lookup (n.GetFieldString "MAC") = some n := by
            rw [hpeers, hmac]
            exact AList.lookup_insert _
          rw [onNodeEvent_pending (s.onNodeEvent n) n n (by rw [hmac]; exact hne) hl,
            ensureLink_fixed _ _ _ (Or.inr (Or.inl (by rw [hids]; exact habs)))]
          exact ⟨rfl, rfl⟩
        · have hpend1 : n.GetFieldString "MAC" = "" ∨
              (s.onNodeEvent n).peers.lookup (n.GetFieldString "MAC") = none := by
            rcases hpend with h | h
            · exact Or.inl h
            · right
              rw [hpeers, AList.lookup_insert_ne hmac]
              exact h
          have h2 := onNodeEvent_not_pending (s.onNodeEvent n) n hpend1
          rw [if_pos hne] at h2
          have hN1 : (s.onNodeEvent n).graph.GetNodes
              [("MAC", Value.str (n.GetFieldString "PeerIntfMAC"))] = [] := by
            rw [GetNodes_congr s.graph _ (onNodeEvent_nodes s n), hN]
          rw [hN1] at h2
          rw [h2]
          simp only
          refine ⟨?_, trivial⟩
          rw [hpeers]
          exact AList.insert_insert _
      | [q] =>
        rw [hN] at h1
        have hN1 : (s.onNodeEvent n).graph.GetNodes
            [("MAC", Value.str (n.GetFieldString "PeerIntfMAC"))] = [q] := by
          rw [GetNodes_congr s.graph _ (onNodeEvent_nodes s n), hN]
        have hgraph : (s.onNodeEvent n).graph = (s.ensureLink n q).graph := by rw [h1]
        have hpeers : (s.onNodeEvent n).peers =
            s.peers.insert (n.GetFieldString "PeerIntfMAC") n := by
          rw [h1]
          simp only [ensureLink_peers]
        have hsettled : HaveLayer2Link (s.onNodeEvent n).graph n q [] = true ∨
            n.ID ∉ (s.onNodeEvent n).graph.nodeIDs ∨ q.ID ∉ (s.onNodeEvent n).graph.nodeIDs := by
          rw [hgraph]
          exact ensureLink_settled s n q
        by_cases hmac : n.GetFieldString "MAC" = n.GetFieldString "PeerIntfMAC"
        · -- the node is now pending under its own MAC
          have hl : (s.onNodeEvent n).peers.lookup (n.GetFieldString "MAC") = some n := by
            rw [hpeers, hmac]
            exact AList.lookup_insert _
          have hself : HaveLayer2Link (s.onNodeEvent n).graph n n [] = true ∨
              n.ID ∉ (s.onNodeEvent n).graph.nodeIDs ∨
              n.ID ∉ (s.onNodeEvent n).graph.nodeIDs := by
            rcases hn with hn | hn
            · have hmem := mem_GetNodes_of_mac s.graph n _ hn hmac hne
              rw [hN, List.mem_singleton] at hmem
              subst hmem
              exact hsettled
            · exact Or.inr (Or.inl (by rw [hids]; exact hn))
          rw [onNodeEvent_pending (s.onNodeEvent n) n n (by rw [hmac]; exact hne) hl,
            ensureLink_fixed _ _ _ hself]
          exact ⟨rfl, rfl⟩
        · have hpend1 : n.GetFieldString "MAC" = "" ∨
              (s.onNodeEvent n).peers.lookup (n.GetFieldString "MAC") = none := by
            rcases hpend with h | h
            · exact Or.inl h
            · right
              rw [hpeers, AList.lookup_insert_ne hmac]
              exact h
          have h2 := onNodeEvent_not_pending (s.onNodeEvent n) n hpend1
          rw [if_pos hne, hN1] at h2
          simp only [ensureLink_fixed _ _ _ hsettled] at h2
          rw [h2]
          simp only
          refine ⟨?_, trivial⟩
          rw [hpeers]
          exact AList.insert_insert _
      | a :: b :: l =>
        rw [hN] at h1
        have hpeers : (s.onNodeEvent n).peers = s.peers := by rw [h1]
        have hgraph : (s.onNodeEvent n).graph = s.graph := by rw [h1]
        have hpend1 : n.GetFieldString "MAC" = "" ∨
            (s.onNodeEvent n).peers.lookup (n.GetFieldString "MAC") = none := by
          rw [hpeers]
          exact hpend
        have h2 := onNodeEvent_not_pending (s.onNodeEvent n) n hpend1
        rw [if_pos hne, hgraph, hN] at h2
        rw [h2]
        exact ⟨rfl, hgraph.symm ▸ rfl⟩
    · have h1 := onNodeEvent_not_pending s n hpend
      rw [if_neg hne] at h1
      rw [h1, h1]
      exact ⟨rfl, rfl⟩
  · rw [not_or] at hpend
    obtain ⟨hmac, hl⟩ := hpend
    obtain ⟨node, hnode⟩ := Option.ne_none_iff_exists'.1 hl
    have h1 := onNodeEvent_pending s n node hmac hnode
    have hnode1 : (s.onNodeEvent n).peers.lookup (n.GetFieldString "MAC") = some node := by
      rw [h1, ensureLink_peers]
      exact hnode
    have hsettled : HaveLayer2Link (s.onNodeEvent n).graph node n [] = true ∨
        node.ID ∉ (s.onNodeEvent n).graph.nodeIDs ∨ n.ID ∉ (s.onNodeEvent n).graph.nodeIDs := by
      rw [h1]
      exact ensureLink_settled s node n
    rw [onNodeEvent_pending (s.onNodeEvent n) n node hmac hnode1, ensureLink_fixed _ _ _ hsettled]
    exact ⟨rfl, rfl⟩

theorem layer2Links_length_of_added (g g1 : Graph) (a b : Node)
    (hedges : g1.edges = g.edges ∨ ∃ e, g1.edges = g.edges ++ [e])
    (h0 : HaveLayer2Link g a b [] = false) (h1 : HaveLayer2Link g1 a b [] = true) :
    (layer2Links g1 a b []).length = 1 := by
  have hnil : g.edges.filter (fun e => e.isLayer2Between a.ID b.ID []) = [] := by
    rw [List.filter_eq_nil_iff]
    intro e he
    unfold HaveLayer2Link at h0
    rw [List.any_eq_false] at h0
    exact h0 e he
  rcases hedges with h | ⟨e, h⟩
  · unfold HaveLayer2Link at h0 h1
    rw [h, h0] at h1
    exact absurd h1 (by simp)
  · unfold HaveLayer2Link at h1
    unfold layer2Links
    rw [h, List.any_append] at h1
    rw [h, List.filter_append, hnil]
    have h0a : (g.edges.any fun e => e.isLayer2Between a.ID b.ID []) = false := h0
    rw [h0a] at h1
    simp only [Bool.false_or, List.any_cons, List.any_nil, Bool.or_false] at h1
    simp [List.filter_cons, h1]

/-- C8. Replay idempotence: delivering the same node event twice in succession
gives the same `peers` map and the same graph (hence the same layer-2 links
between any two nodes) as delivering it once; the second delivery adds no
edge, so a pair of nodes that the first delivery linked ends with exactly one
layer-2 link.  Nodes are identified by their identifier: the node `n` of the
event is one of the nodes of the graph, or the graph holds no node with its
identifier. -/
theorem replay_idempotence (s : PeeringProbe) (ev : NodeEvent) (n : Node)
    (hn : n ∈ s.graph.nodes ∨ n.ID ∉ s.graph.nodeIDs) :
    ((s.deliver ev n).deliver ev n).peers = (s.deliver ev n).peers ∧
    ((s.deliver ev n).deliver ev n).graph = (s.deliver ev n).graph ∧
    (∀ a b : Node, layer2Links ((s.deliver ev n).deliver ev n).graph a b [] =
      layer2Links (s.deliver ev n).graph a b []) ∧
    (∀ a b : Node, HaveLayer2Link s.graph a b [] = false →
      HaveLayer2Link (s.deliver ev n).graph a b [] = true →
      (layer2Links ((s.deliver ev n).deliver ev n).graph a b []).length = 1) := by
  simp only [deliver_eq]
  obtain ⟨hp, hg⟩ := onNodeEvent_replay s n hn
  refine ⟨hp, hg, fun a b => by rw [hg], fun a b h0 h1 => ?_⟩
  rw [hg]
  exact layer2Links_length_of_added s.graph _ a b (onNodeEvent_edges s n) h0 h1

/-! ## The peer index only holds present nodes -/

theorem peersInGraph_iff (p : PeeringProbe) :
    p.peersInGraph ↔ ∀ k node, p.peers.lookup k = some node → node.ID ∈ p.graph.nodeIDs := by
  unfold PeeringProbe.peersInGraph
  constructor
  · intro h k node hl
    exact h ⟨k, node⟩ (AList.mem_lookup_iff.1 hl)
  · rintro h ⟨k, node⟩ hmem
    exact h k node (AList.mem_lookup_iff.2 hmem)

theorem peersInGraph_onNodeEvent (p : PeeringProbe) (n : Node) (h : p.peersInGraph)
    (hn : n.ID ∈ p.graph.nodeIDs) : (p.onNodeEvent n).peersInGraph := by
  rw [peersInGraph_iff] at h ⊢
  have hids : (p.onNodeEvent n).graph.nodeIDs = p.graph.nodeIDs := by
    unfold Graph.nodeIDs
    rw [onNodeEvent_nodes]
  rw [hids]
  intro k node hl
  rcases onNodeEvent_peers p n with h1 | ⟨-, h1⟩
  · rw [h1] at hl
    exact h k node hl
  · rw [h1] at hl
    by_cases hk : k = n.GetFieldString "PeerIntfMAC"
    · subst hk
      rw [AList.lookup_insert] at hl
      cases hl
      exact hn
    · rw [AList.lookup_insert_ne hk] at hl
      exact h k node hl

theorem peersInGraph_step (p : PeeringProbe) (t : Transition) (h : p.peersInGraph)
    (ht : t.admissible p = true) : (p.step t).peersInGraph := by
  cases t with
  | mutate g =>
    simp only [Transition.admissible, List.all_eq_true, decide_eq_true_eq] at ht
    intro kv hkv
    exact ht _ (h kv hkv)
  | nodeEvent ev n =>
    simp only [Transition.admissible, decide_eq_true_eq] at ht
    simp only [PeeringProbe.step, deliver_eq]
    exact peersInGraph_onNodeEvent p n h ht
  | nodeDeleted g n =>
    simp only [Transition.admissible, List.all_eq_true, Bool.or_eq_true, decide_eq_true_eq] at ht
    rw [peersInGraph_iff] at h ⊢
    intro k node hl
    simp only [PeeringProbe.step] at hl ⊢
    rw [OnNodeDeleted_lookup] at hl
    cases hold : p.peers.lookup k with
    | none => simp [hold, Option.filter] at hl
    | some v =>
      simp only [hold, Option.filter] at hl
      split at hl
      · cases hl
        rename_i hne
        simp only [ne_eq, decide_eq_true_eq] at hne
        rcases ht _ (h k _ hold) with h1 | h1
        · exact absurd h1 hne
        · exact h1
      · cases hl

theorem peersInGraph_run (p : PeeringProbe) (ts : List Transition) (h : p.peersInGraph)
    (hts : admissibleTrace p ts = true) : (p.run ts).peersInGraph := by
  induction ts generalizing p with
  | nil => exact h
  | cons t ts ih =>
    simp only [admissibleTrace, Bool.and_eq_true] at hts
    exact ih (p.step t) (peersInGraph_step p t h hts.1) hts.2

theorem admissibleTrace_take (p : PeeringProbe) (ts : List Transition) (k : Nat)
    (hts : admissibleTrace p ts = true) : admissibleTrace p (ts.take k) = true := by
  induction ts generalizing p k with
  | nil => simp [admissibleTrace]
  | cons t ts ih =>
    cases k with
    | zero => simp [admissibleTrace]
    | succ k =>
      simp only [admissibleTrace, Bool.and_eq_true, List.take_succ_cons] at hts ⊢
      exact ⟨hts.1, ih _ k hts.2⟩

/-- C6. Peer-index invariant: start from `NewPeeringProbe g` and follow any
sequence of transitions in which node events are delivered only for nodes
currently in the graph and a node leaves the graph only together with its
`NodeDeleted` event.  Then after every transition (every prefix of the
sequence) each node stored in `peers` has an identifier present in the
graph. -/
theorem peer_index_holds_only_present_nodes (g : Graph) (ts : List Transition)
    (hts : admissibleTrace (NewPeeringProbe g) ts = true) (k : Nat) :
    ((NewPeeringProbe g).run (ts.take k)).peersInGraph := by
  apply peersInGraph_run _ _ _ (admissibleTrace_take _ ts k hts)
  intro kv hkv
  simp [NewPeeringProbe] at hkv

/-! ## Deferred resolution -/

theorem addNode_eq (p : PeeringProbe) (n : Node) (h : n.ID ∉ p.graph.nodeIDs) :
    p.addNode n =
      ({ p with graph := { p.graph with nodes := p.graph.nodes ++ [n] } }).onNodeEvent n := by
  unfold PeeringProbe.addNode Graph.NewNode
  rw [if_neg h]
  rfl

theorem GetFieldString_of_matchesFilter (n : Node) (name m : String)
    (h : n.metadata.matchesFilter [(name, Value.str m)] = true) :
    n.GetFieldString name = m := by
  simp only [Metadata.matchesFilter, List.all_cons, List.all_nil, Bool.and_true,
    decide_eq_true_eq] at h
  unfold Node.GetFieldString
  rw [h]

theorem eq_of_ID_eq (g : Graph) (hnd : g.nodeIDs.Nodup) (a b : Node) (ha : a ∈ g.nodes)
    (hb : b ∈ g.nodes) (h : a.ID = b.ID) : a = b :=
  List.inj_on_of_nodup_map hnd ha hb h

theorem deferred_first (g : Graph) (B : Node) (m1 : String) (hm1 : m1 ≠ "")
    (hB : B.ID ∉ g.nodeIDs) (hBp : B.GetFieldString "PeerIntfMAC" = m1)
    (hg : g.GetNodes [("MAC", Value.str m1)] = []) :
    ((NewPeeringProbe g).addNode B).peers = (∅ : Peers).insert m1 B ∧
    ((NewPeeringProbe g).addNode B).graph.nodes = g.nodes ++ [B] ∧
    ∀ e ∈ ((NewPeeringProbe g).addNode B).graph.edges,
      e ∈ g.edges ∨ (e.parent = B.ID ∧ e.child = B.ID) := by
  rw [addNode_eq _ _ hB]
  have hpend : B.GetFieldString "MAC" = "" ∨
      ({ NewPeeringProbe g with graph := { (NewPeeringProbe g).graph with
          nodes := (NewPeeringProbe g).graph.nodes ++ [B] } } : PeeringProbe).peers.lookup
        (B.GetFieldString "MAC") = none := Or.inr rfl
  rw [onNodeEvent_not_pending _ _ hpend, hBp, if_pos hm1]
  have hG : (({ NewPeeringProbe g with graph := { (NewPeeringProbe g).graph with
          nodes := (NewPeeringProbe g).graph.nodes ++ [B] } } : PeeringProbe).graph.GetNodes
        [("MAC", Value.str m1)]) =
      if B.metadata.matchesFilter [("MAC", Value.str m1)] = true then [B] else [] := by
    unfold Graph.GetNodes at hg ⊢
    simp only [NewPeeringProbe, List.filter_append, hg, List.nil_append, List.filter_cons,
      List.filter_nil] at hg ⊢
  rw [hG]
  by_cases hBm : B.metadata.matchesFilter [("MAC", Value.str m1)] = true
  · rw [if_pos hBm]
    simp only [ensureLink_peers, ensureLink_nodes]
    refine ⟨rfl, rfl, ?_⟩
    intro e he
    rcases ensureLink_edges_cases _ B B with h0 | h0
    · rw [h0] at he
      exact Or.inl he
    · rw [h0] at he
      rcases List.mem_append.1 he with h | h
      · exact Or.inl h
      · rw [List.mem_singleton] at h
        subst h
        exact Or.inr ⟨rfl, rfl⟩
  · rw [if_neg hBm]
    exact ⟨rfl, rfl, fun e he => Or.inl he⟩

theorem deferred_second (g : Graph) (A B : Node) (m1 : String) (hm1 : m1 ≠ "")
    (hwf : g.WF) (hB : B.ID ∉ g.nodeIDs) (hA : A.ID ∉ g.nodeIDs) (hAB : A.ID ≠ B.ID)
    (hBp : B.GetFieldString "PeerIntfMAC" = m1) (hAm : A.GetFieldString "MAC" = m1)
    (hg : g.GetNodes [("MAC", Value.str m1)] = []) :
    (((NewPeeringProbe g).addNode B).addNode A).peers = (∅ : Peers).insert m1 B ∧
    (((NewPeeringProbe g).addNode B).addNode A).graph.nodes = g.nodes ++ [B] ++ [A] ∧
    (layer2Links (((NewPeeringProbe g).addNode B).addNode A).graph B A []).length = 1 := by
  obtain ⟨hp1, hn1, he1⟩ := deferred_first g B m1 hm1 hB hBp hg
  have hA1 : A.ID ∉ ((NewPeeringProbe g).addNode B).graph.nodeIDs := by
    unfold Graph.nodeIDs at hA ⊢
    rw [hn1, List.map_append, List.mem_append]
    rintro (h | h)
    · exact hA h
    · simp only [List.map_cons, List.map_nil, List.mem_singleton] at h
      exact hAB h
  rw [addNode_eq _ _ hA1]
  have hl : ({ (NewPeeringProbe g).addNode B with graph :=
      { ((NewPeeringProbe g).addNode B).graph with
        nodes := ((NewPeeringProbe g).addNode B).graph.nodes ++ [A] } } : PeeringProbe).peers.lookup
        (A.GetFieldString "MAC") = some B := by
    simp only [hp1]
    rw [hAm, AList.lookup_insert]
  rw [onNodeEvent_pending _ A B (by rw [hAm]; exact hm1) hl]
  have hno : ∀ e ∈ ((NewPeeringProbe g).addNode B).graph.edges,
      e.isLayer2Between B.ID A.ID [] = false := by
    intro e he
    have hcond : ¬ ((e.parent = B.ID ∧ e.child = A.ID) ∨ (e.parent = A.ID ∧ e.child = B.ID)) := by
      rcases he1 e he with h | ⟨h1, h2⟩
      · have := hwf.2 e h
        rintro (⟨hp, -⟩ | ⟨hp, -⟩)
        · exact hB (hp ▸ this.1)
        · exact hA (hp ▸ this.1)
      · rintro (⟨-, hc⟩ | ⟨hp, -⟩)
        · exact hAB (hc.symm.trans h2)
        · exact hAB (hp.symm.trans h1)
    rw [not_or] at hcond
    simp [Edge.isLayer2Between, hcond.1, hcond.2]
  have hhave : HaveLayer2Link ({ (NewPeeringProbe g).addNode B with graph :=
      { ((NewPeeringProbe g).addNode B).graph with
        nodes := ((NewPeeringProbe g).addNode B).graph.nodes ++ [A] } } : PeeringProbe).graph
        B A [] = false := by
    unfold HaveLayer2Link
    rw [List.any_eq_false]
    intro e he
    rw [hno e he]
    simp
  refine ⟨?_, ?_, ?_⟩
  · rw [ensureLink_peers]
    exact hp1
  · rw [ensureLink_nodes]
    simp only [hn1]
  · unfold layer2Links
    rw [ensureLink_edges _ B A (by unfold Graph.nodeIDs; simp [hn1])
      (by unfold Graph.nodeIDs; simp [hn1]), hhave]
    simp only [Bool.false_eq_true, if_false, List.filter_append]
    have hnil : (((NewPeeringProbe g).addNode B).graph.edges.filter
        fun e => e.isLayer2Between B.ID A.ID []) = [] := by
      rw [List.filter_eq_nil_iff]
      intro e he
      rw [hno e he]
      simp
    rw [hnil]
    simp [List.filter_cons, Edge.isLayer2Between, layer2Metadata_matches]

theorem deferred_third (s2 : PeeringProbe) (g : Graph) (A B C : Node) (m1 m2 : String)
    (hwf : g.WF) (hB : B.ID ∉ g.nodeIDs) (hA : A.ID ∉ g.nodeIDs) (hAB : A.ID ≠ B.ID)
    (hC : C.ID ∉ g.nodeIDs) (hCA : C.ID ≠ A.ID) (hCB : C.ID ≠ B.ID)
    (hAm : A.GetFieldString "MAC" = m1)
    (hCm : C.GetFieldString "MAC" = m2) (hm12 : m2 ≠ m1)
    (hCp : C.GetFieldString "PeerIntfMAC" ≠ m1)
    (hCpB : C.GetFieldString "PeerIntfMAC" = "" ∨
      C.GetFieldString "PeerIntfMAC" ≠ B.GetFieldString "MAC")
    (hp2 : s2.peers = (∅ : Peers).insert m1 B)
    (hn2 : s2.graph.nodes = g.nodes ++ [B] ++ [A]) :
    (s2.addNode C).peers.lookup m1 = s2.peers.lookup m1 ∧
    ∃ added, (s2.addNode C).graph.edges = s2.graph.edges ++ added ∧
      ∀ e ∈ added, e.parent ≠ A.ID ∧ e.parent ≠ B.ID ∧ e.child ≠ A.ID ∧ e.child ≠ B.ID := by
  have hC2 : C.ID ∉ s2.graph.nodeIDs := by
    unfold Graph.nodeIDs at hC ⊢
    rw [hn2]
    simp only [List.map_append, List.map_cons, List.map_nil, List.mem_append,
      List.mem_singleton, not_or]
    exact ⟨⟨hC, hCB⟩, hCA⟩
  rw [addNode_eq _ _ hC2]
  generalize hs : ({ s2 with graph := { s2.graph with nodes := s2.graph.nodes ++ [C] } } :
    PeeringProbe) = sc
  have hpc : sc.peers = s2.peers := by rw [← hs]
  have hec : sc.graph.edges = s2.graph.edges := by rw [← hs]
  have hnc : sc.graph.nodes = g.nodes ++ [B] ++ [A] ++ [C] := by rw [← hs]; simp only [hn2]
  have hnodup : sc.graph.nodeIDs.Nodup := by
    have h0 := hwf.1
    unfold Graph.nodeIDs at h0 hA hB hC ⊢
    rw [hnc]
    simp only [List.map_append, List.map_cons, List.map_nil, List.append_assoc,
      List.cons_append, List.nil_append]
    rw [List.nodup_append]
    refine ⟨h0, ?_, ?_⟩
    · simp only [List.nodup_cons, List.mem_cons, List.mem_singleton, List.not_mem_nil,
        or_false, not_or, not_false_eq_true, List.nodup_nil, and_true]
      exact ⟨⟨Ne.symm hAB, Ne.symm hCB⟩, Ne.symm hCA⟩
    · intro a ha hb
      simp only [List.mem_cons, List.mem_singleton, List.not_mem_nil, or_false] at hb
      rcases hb with rfl | rfl | rfl
      · exact hB ha
      · exact hA ha
      · exact hC ha
  have hAin : A ∈ sc.graph.nodes := by rw [hnc]; simp
  have hBin : B ∈ sc.graph.nodes := by rw [hnc]; simp
  have hpend : C.GetFieldString "MAC" = "" ∨ sc.peers.lookup (C.GetFieldString "MAC") = none := by
    right
    rw [hpc, hp2, hCm, AList.lookup_insert_ne hm12]
    exact AList.lookup_empty _
  constructor
  · rcases onNodeEvent_peers sc C with h | ⟨-, h⟩
    · rw [h, hpc]
    · rw [h, AList.lookup_insert_ne (Ne.symm hCp), hpc]
  · rw [onNodeEvent_not_pending sc C hpend, ← hec]
    by_cases hne : C.GetFieldString "PeerIntfMAC" ≠ ""
    · rw [if_pos hne]
      match hN : sc.graph.GetNodes [("MAC", Value.str (C.GetFieldString "PeerIntfMAC"))] with
      | [] => exact ⟨[], by simp, by simp⟩
      | _ :: _ :: _ => exact ⟨[], by simp, by simp⟩
      | [q] =>
        have hq : q ∈ sc.graph.GetNodes
            [("MAC", Value.str (C.GetFieldString "PeerIntfMAC"))] := by rw [hN]; simp
        unfold Graph.GetNodes at hq
        obtain ⟨hqin, hqm⟩ := List.mem_filter.1 hq
        have hqmac := GetFieldString_of_matchesFilter q "MAC" _ hqm
        have hqA : q.ID ≠ A.ID := by
          intro h
          have := eq_of_ID_eq sc.graph hnodup q A hqin hAin h
          subst this
          exact hCp (hqmac.symm.trans hAm)
        have hqB : q.ID ≠ B.ID := by
          intro h
          have := eq_of_ID_eq sc.graph hnodup q B hqin hBin h
          subst this
          rcases hCpB with h1 | h1
          · exact hne h1
          · exact h1 hqmac.symm
        rcases ensureLink_edges_cases sc C q with h0 | h0
        · exact ⟨[], by simp [h0], by simp⟩
        · refine ⟨[⟨C.ID, q.ID, layer2Metadata []⟩], h0, ?_⟩
          intro e he
          rw [List.mem_singleton] at he
          subst he
          exact ⟨hCA, hCB, hqA, hqB⟩
    · rw [if_neg hne]
      exact ⟨[], by simp, by simp⟩

/-- C7 (amended). Deferred resolution: from an empty `peers` index and a
well-formed graph with no node whose `MAC` is `m1`, adding `B` with
`PeerIntfMAC = m1` and then `A` with `MAC = m1` leaves exactly one layer-2
link between `B` and `A`.  Adding then a third node `C` with
`MAC = m2 ≠ m1`, `PeerIntfMAC ≠ m1`, and whose `PeerIntfMAC` is unset or is
not the `MAC` of `B`, leaves `peers[m1]` as it was and appends no edge that
has `A` or `B` as an endpoint. -/
theorem deferred_resolution (g : Graph) (A B C : Node) (m1 m2 : String)
    (hwf : g.WF) (hm1 : m1 ≠ "")
    (hg : g.GetNodes [("MAC", Value.str m1)] = [])
    (hB : B.ID ∉ g.nodeIDs) (hA : A.ID ∉ g.nodeIDs) (hAB : A.ID ≠ B.ID)
    (hC : C.ID ∉ g.nodeIDs) (hCA : C.ID ≠ A.ID) (hCB : C.ID ≠ B.ID)
    (hBp : B.GetFieldString "PeerIntfMAC" = m1)
    (hAm : A.GetFieldString "MAC" = m1)
    (hCm : C.GetFieldString "MAC" = m2) (hm12 : m2 ≠ m1)
    (hCp : C.GetFieldString "PeerIntfMAC" ≠ m1)
    (hCpB : C.GetFieldString "PeerIntfMAC" = "" ∨
      C.GetFieldString "PeerIntfMAC" ≠ B.GetFieldString "MAC") :
    (layer2Links (((NewPeeringProbe g).addNode B).addNode A).graph B A []).length = 1 ∧
    ((((NewPeeringProbe g).addNode B).addNode A).addNode C).peers.lookup m1 =
      (((NewPeeringProbe g).addNode B).addNode A).peers.lookup m1 ∧
    (((NewPeeringProbe g).addNode B).addNode A).peers.lookup m1 = some B ∧
    ∃ added, ((((NewPeeringProbe g).addNode B).addNode A).addNode C).graph.edges =
        (((NewPeeringProbe g).addNode B).addNode A).graph.edges ++ added ∧
      ∀ e ∈ added, e.parent ≠ A.ID ∧ e.parent ≠ B.ID ∧ e.child ≠ A.ID ∧ e.child ≠ B.ID := by
  obtain ⟨hp2, hn2, hlinks⟩ := deferred_second g A B m1 hm1 hwf hB hA hAB hBp hAm hg
  obtain ⟨h3p, h3e⟩ := deferred_third _ g A B C m1 m2 hwf hB hA hAB hC hCA hCB hAm hCm hm12
    hCp hCpB hp2 hn2
  refine ⟨hlinks, h3p, ?_, h3e⟩
  rw [hp2, AList.lookup_insert]

/-! ## The properties at concrete scenarios -/

/-- The single-match branch on `A(MAC=m1)` then `B(PeerIntfMAC=m1)`: the link
exists and `peers[m1] = B`. -/
theorem single_match_witness :
    probeAB.graph.GetNodes [("MAC", Value.str "m1")] = [nodeA] ∧
    HaveLayer2Link (probeAB.deliver NodeEvent.NodeAdded nodeB).graph nodeB nodeA [] = true ∧
    (probeAB.deliver NodeEvent.NodeAdded nodeB).peers.lookup "m1" = some nodeB :=
  have h := single_match_links_and_registers probeAB NodeEvent.NodeAdded nodeB nodeA "m1"
    (by decide) (by decide) (by decide) (by decide) (by decide)
  ⟨by decide, h.1, h.2.2.2.1⟩

/-- The pending-peer branch on `B` pending under `m1` and `A(MAC=m1)` arriving. -/
theorem pending_peer_witness :
    probePendingB.peers.lookup "m1" = some nodeB ∧
    HaveLayer2Link (probePendingB.deliver NodeEvent.NodeAdded nodeA).graph nodeB nodeA [] = true ∧
    (probePendingB.deliver NodeEvent.NodeAdded nodeA).peers = probePendingB.peers :=
  have h := pending_peer_completion probePendingB NodeEvent.NodeAdded nodeA nodeB "m1"
    (by decide) (by decide) (by decide) (by decide) (by decide)
  ⟨by decide, h.1, h.2.2.2.1⟩

/-- The zero-match branch on `B(PeerIntfMAC=m1)` alone in the graph. -/
theorem zero_match_witness :
    (NewPeeringProbe ⟨[nodeB], []⟩).graph.GetNodes [("MAC", Value.str "m1")] = [] ∧
    ((NewPeeringProbe ⟨[nodeB], []⟩).deliver NodeEvent.NodeAdded nodeB).graph =
      (NewPeeringProbe ⟨[nodeB], []⟩).graph ∧
    ((NewPeeringProbe ⟨[nodeB], []⟩).deliver NodeEvent.NodeAdded nodeB).peers.lookup "m1" =
      some nodeB :=
  have h := zero_match_registers_only (NewPeeringProbe ⟨[nodeB], []⟩) NodeEvent.NodeAdded nodeB
    "m1" (by decide) (by decide) (by decide) (by decide)
  ⟨by decide, h.1, h.2.1⟩

/-- The ambiguous branch on two nodes with `MAC = m1` and `B(PeerIntfMAC=m1)`. -/
theorem ambiguous_match_witness :
    (NewPeeringProbe ⟨[nodeA, nodeA2, nodeB], []⟩).graph.GetNodes [("MAC", Value.str "m1")] =
      [nodeA, nodeA2] ∧
    ((NewPeeringProbe ⟨[nodeA, nodeA2, nodeB], []⟩).deliver NodeEvent.NodeAdded nodeB).graph =
      (NewPeeringProbe ⟨[nodeA, nodeA2, nodeB], []⟩).graph ∧
    ((NewPeeringProbe ⟨[nodeA, nodeA2, nodeB], []⟩).deliver NodeEvent.NodeAdded nodeB).peers.lookup
      "m1" = none :=
  have h := ambiguous_match_changes_nothing (NewPeeringProbe ⟨[nodeA, nodeA2, nodeB], []⟩)
    NodeEvent.NodeAdded nodeB "m1" (by decide) (by decide) (by decide) (by decide)
  ⟨by decide, h.1, h.2.2.1 (by decide)⟩

/-- Deleting `B`, filed under `m1` and `m7`, removes both keys and keeps `mx`. -/
theorem deletion_cleanup_witness :
    (probeTwoKeys.OnNodeDeleted nodeB).peers.lookup "m1" = none ∧
    (probeTwoKeys.OnNodeDeleted nodeB).peers.lookup "m7" = none ∧
    (probeTwoKeys.OnNodeDeleted nodeB).peers.lookup "mx" = some nodeX :=
  have h := deletion_cleanup probeTwoKeys nodeB
  ⟨h.2.1 "m1" nodeB (by decide) rfl, h.2.1 "m7" nodeB (by decide) rfl,
    h.2.2.1 "mx" nodeX (by decide) (by decide)⟩

/-- The invariant along `B` added, `A` added, `B` updated, `B` deleted. -/
theorem peer_index_witness :
    admissibleTrace (NewPeeringProbe ⟨[], []⟩) traceAddAddDelete = true ∧
    ((NewPeeringProbe ⟨[], []⟩).run (traceAddAddDelete.take 2)).peers.lookup "m1" = some nodeB ∧
    ((NewPeeringProbe ⟨[], []⟩).run (traceAddAddDelete.take 2)).peersInGraph ∧
    ((NewPeeringProbe ⟨[], []⟩).run (traceAddAddDelete.take 6)).peersInGraph :=
  ⟨by decide, by decide,
    peer_index_holds_only_present_nodes ⟨[], []⟩ traceAddAddDelete (by decide) 2,
    peer_index_holds_only_present_nodes ⟨[], []⟩ traceAddAddDelete (by decide) 6⟩

/-- C7 as stated fails: `B` has `MAC = mb`, and the third node `C` has
`MAC = m2 ≠ m1` and `PeerIntfMAC = mb ≠ m1`.  All the conditions of the claim
hold, `peers[m1]` stays `B`, yet adding `C` appends a layer-2 link from `C`
to `B`. -/
theorem deferred_resolution_third_node_links_B :
    Graph.GetNodes ⟨[], []⟩ [("MAC", Value.str "m1")] = [] ∧
    nodeBmac.GetFieldString "PeerIntfMAC" = "m1" ∧
    nodeA.GetFieldString "MAC" = "m1" ∧
    nodeA.GetFieldString "PeerIntfMAC" = "" ∧
    nodeC.GetFieldString "MAC" = "m2" ∧ "m2" ≠ "m1" ∧
    nodeC.GetFieldString "PeerIntfMAC" ≠ "m1" ∧
    (((NewPeeringProbe ⟨[], []⟩).addNode nodeBmac).addNode nodeA).graph.edges =
      [⟨nodeBmac.ID, nodeA.ID, layer2Metadata []⟩] ∧
    ((((NewPeeringProbe ⟨[], []⟩).addNode nodeBmac).addNode nodeA).addNode nodeC).peers.lookup
      "m1" = some nodeBmac ∧
    ((((NewPeeringProbe ⟨[], []⟩).addNode nodeBmac).addNode nodeA).addNode nodeC).graph.edges =
      [⟨nodeBmac.ID, nodeA.ID, layer2Metadata []⟩, ⟨nodeC.ID, nodeBmac.ID, layer2Metadata []⟩] := by
  decide

/-- The amended deferred resolution with a third node that peers with `X`. -/
theorem deferred_resolution_witness :
    nodeCx.GetFieldString "PeerIntfMAC" ≠ nodeBmac.GetFieldString "MAC" ∧
    (layer2Links (((NewPeeringProbe ⟨[nodeX], []⟩).addNode nodeBmac).addNode nodeA).graph
      nodeBmac nodeA []).length = 1 ∧
    ((((NewPeeringProbe ⟨[nodeX], []⟩).addNode nodeBmac).addNode nodeA).addNode nodeCx).peers.lookup
      "m1" = some nodeBmac :=
  have h := deferred_resolution ⟨[nodeX], []⟩ nodeA nodeBmac nodeCx "m1" "m2"
    (by unfold Graph.WF; decide) (by decide) (by decide) (by decide) (by decide) (by decide)
    (by decide) (by decide) (by decide) (by decide) (by decide) (by decide) (by decide)
    (by decide) (Or.inr (by decide))
  ⟨by decide, h.1, h.2.1.trans h.2.2.1⟩

/-- Replaying `NodeAdded(B)` after the single match `A`, and replaying the
event of the absent node `S` that names itself as its peer. -/
theorem replay_idempotence_witness :
    nodeB ∈ probeAB.graph.nodes ∧
    ((probeAB.deliver NodeEvent.NodeAdded nodeB).deliver NodeEvent.NodeAdded nodeB).graph =
      (probeAB.deliver NodeEvent.NodeAdded nodeB).graph ∧
    (layer2Links ((probeAB.deliver NodeEvent.NodeAdded nodeB).deliver NodeEvent.NodeAdded
      nodeB).graph nodeB nodeA []).length = 1 ∧
    (((NewPeeringProbe ⟨[], []⟩).deliver NodeEvent.NodeAdded nodeS).deliver NodeEvent.NodeAdded
      nodeS).graph = ((NewPeeringProbe ⟨[], []⟩).deliver NodeEvent.NodeAdded nodeS).graph :=
  have h := replay_idempotence probeAB NodeEvent.NodeAdded nodeB (Or.inl (by decide))
  ⟨by decide, h.2.1, h.2.2.2 nodeB nodeA (by decide) (by decide),
    (replay_idempotence (NewPeeringProbe ⟨[], []⟩) NodeEvent.NodeAdded nodeS
      (Or.inr (by decide))).2.1⟩

/-- A node with a `MAC` and no `PeerIntfMAC` changes neither `peers` nor the
graph of a fresh probe. -/
theorem registration_asymmetry_witness :
    ((NewPeeringProbe ⟨[nodeA], []⟩).deliver NodeEvent.NodeAdded nodeA).peers =
      (NewPeeringProbe ⟨[nodeA], []⟩).peers ∧
    ((NewPeeringProbe ⟨[nodeA], []⟩).deliver NodeEvent.NodeAdded nodeA).graph =
      (NewPeeringProbe ⟨[nodeA], []⟩).graph :=
  have h := registration_asymmetry (NewPeeringProbe ⟨[nodeA], []⟩) NodeEvent.NodeAdded nodeA
  ⟨h.2.1 (by decide), h.2.2.2 (by decide) (by decide)⟩

/-- The node `S(MAC=ms, PeerIntfMAC=ms)` alone in the graph links to itself. -/
theorem self_peering_witness :
    (NewPeeringProbe ⟨[nodeS], []⟩).graph.GetNodes [("MAC", Value.str "ms")] = [nodeS] ∧
    ((NewPeeringProbe ⟨[nodeS], []⟩).deliver NodeEvent.NodeAdded nodeS).graph.edges =
      [⟨"S", "S", layer2Metadata []⟩] ∧
    ((NewPeeringProbe ⟨[nodeS], []⟩).deliver NodeEvent.NodeAdded nodeS).peers.lookup "ms" =
      some nodeS :=
  have h := self_peering_links_node_to_itself (NewPeeringProbe ⟨[nodeS], []⟩)
    NodeEvent.NodeAdded nodeS "ms" (by decide) (by decide) (by decide) (by decide) (by decide)
  ⟨by decide, h.2.1, h.2.2⟩

end Skydive

open Skydive

